import Mathlib

/-!
Verification of the hdl-lrm-mcp extraction/embedding pipeline.

Each definition below is a shallow embedding of a function of the repository,
translated from the Python source as closely as Lean permits:

* `chunk_text`            — src/embeddings/generate_embeddings.py, `chunk_text`
* `processBatch`          — src/embeddings/generate_embeddings.py, `process_sections`
                            (the per-batch chunk/encode/regroup/mean-pool loop)
* `validateAll`           — src/parser/scripts/validate_extraction.py
* `storeInDatabase`       — src/parser/parse_lrm.py, `store_in_database`
* `extract_sections`      — src/parser/parse_lrm.py, `extract_sections`
* `extract_tables`        — src/parser/parse_lrm.py, `extract_tables`
* `clearEmbeddings`       — src/embeddings/clear_embeddings.py, `clear_embeddings`

Text is modelled as `List Char`, SQLite tables as Lean lists, REAL/float
vectors as lists of `ℚ` (exact arithmetic), and external collaborators
(the sentence encoder, the md5 digest) as function parameters.
-/

/-! ## Chunker (generate_embeddings.py, `chunk_text`)

The Python loop

    while start < len(text):
        end = min(start + chunk_size, len(text))
        chunks.append(text[start:end])
        start += chunk_size - overlap
        if end == len(text): break

is embedded with an explicit fuel argument; `text.length` steps of fuel are
always enough when `overlap < chunk_size` because `start` strictly grows. -/

def chunkTextAux (text : List Char) (chunkSize overlap : Nat) :
    Nat → Nat → List (List Char)
  | 0, _ => []
  | fuel + 1, start =>
    if start < text.length then
      let e := min (start + chunkSize) text.length
      let c := (text.drop start).take (e - start)
      if e = text.length then [c]
      else c :: chunkTextAux text chunkSize overlap fuel (start + (chunkSize - overlap))
    else []

/-- Embeds `chunk_text(text, chunk_size, overlap)` from generate_embeddings.py:
returns `[text]` when `len(text) <= chunk_size`, otherwise the overlapping
window loop above. -/
def chunk_text (text : List Char) (chunkSize overlap : Nat) : List (List Char) :=
  if text.length ≤ chunkSize then [text]
  else chunkTextAux text chunkSize overlap text.length 0

/-- Number of chunks the loop emits when entered at offset `start < len`. -/
def chunkNumFrom (len w o start : Nat) : Nat :=
  if len ≤ start + w then 1 else (len - start - w - 1) / (w - o) + 2

theorem chunkNumFrom_pos (len w o start : Nat) : 0 < chunkNumFrom len w o start := by
  unfold chunkNumFrom; split
  · exact Nat.one_pos
  · exact Nat.succ_pos _

theorem chunkNumFrom_step (len w o start : Nat) (ho : 0 < o) (how : o < w)
    (h : start + w < len) :
    chunkNumFrom len w o start = chunkNumFrom len w o (start + (w - o)) + 1 := by
  have hd : 0 < w - o := by omega
  unfold chunkNumFrom
  rw [if_neg (by omega)]
  by_cases hcase : len ≤ start + (w - o) + w
  · rw [if_pos hcase]
    have : len - start - w - 1 < w - o := by omega
    rw [Nat.div_eq_of_lt this]
  · rw [if_neg hcase]
    have hsub : len - start - w - 1 = (len - (start + (w - o)) - w - 1) + (w - o) := by omega
    rw [hsub, Nat.add_div_right _ hd]

theorem chunkTextAux_closed (text : List Char) (w o : Nat) (ho : 0 < o) (how : o < w) :
    ∀ fuel start, start < text.length →
      chunkNumFrom text.length w o start ≤ fuel →
      chunkTextAux text w o fuel start =
        (List.range (chunkNumFrom text.length w o start)).map
          (fun i => (text.drop (start + i * (w - o))).take w) := by
  intro fuel
  induction fuel with
  | zero =>
    intro start _ hfuel
    have := chunkNumFrom_pos text.length w o start
    omega
  | succ fuel ih =>
    intro start hstart hfuel
    unfold chunkTextAux
    rw [if_pos hstart]
    by_cases hend : text.length ≤ start + w
    · have he : min (start + w) text.length = text.length := by omega
      have hn : chunkNumFrom text.length w o start = 1 := by
        unfold chunkNumFrom; rw [if_pos hend]
      have hlen : (text.drop start).length = text.length - start := List.length_drop ..
      have h1 : (text.drop start).take (text.length - start) = text.drop start := by
        apply List.take_of_length_le; omega
      have h2 : (text.drop start).take w = text.drop start := by
        apply List.take_of_length_le; omega
      have hr : List.range 1 = [0] := rfl
      simp [he, hn, hr, h1, h2]
    · have hlt : start + w < text.length := by omega
      have he : min (start + w) text.length = start + w := by omega
      have hne : ¬ (start + w = text.length) := by omega
      have htake : start + w - start = w := by omega
      have hstart' : start + (w - o) < text.length := by omega
      have hstep := chunkNumFrom_step text.length w o start ho how hlt
      have hfuel' : chunkNumFrom text.length w o (start + (w - o)) ≤ fuel := by omega
      simp only [he, if_neg hne, htake]
      rw [ih (start + (w - o)) hstart' hfuel', hstep, List.range_succ_eq_map]
      simp only [List.map_cons, List.map_map, Nat.zero_mul, Nat.add_zero]
      congr 1
      apply List.map_congr_left
      intro i _
      simp only [Function.comp_apply]
      congr 2
      rw [Nat.succ_mul]
      omega

/-- For `overlap < chunk_size < len(text)`, `chunk_text` is the list of
windows `text[i*(w-o) : i*(w-o)+w]` for `i < chunkNumFrom len w o 0`. -/
theorem chunk_text_closed (text : List Char) (w o : Nat) (ho : 0 < o) (how : o < w)
    (hlen : w < text.length) :
    chunk_text text w o =
      (List.range (chunkNumFrom text.length w o 0)).map
        (fun i => (text.drop (i * (w - o))).take w) := by
  unfold chunk_text
  rw [if_neg (by omega)]
  have hfuel : chunkNumFrom text.length w o 0 ≤ text.length := by
    unfold chunkNumFrom
    split
    · omega
    · have := Nat.div_le_self (text.length - 0 - w - 1) (w - o)
      omega
  rw [chunkTextAux_closed text w o ho how text.length 0 (by omega) hfuel]
  apply List.map_congr_left
  intro i _
  congr 2
  omega

/-- C1: for `0 < overlap < window`, `chunk_text` returns `[text]` iff
`len(text) <= window`; otherwise every chunk has length `<= window`, each
chunk `i` is the window of `text` starting at `i*(window-overlap)`,
non-final chunks have full length and consecutive chunks overlap, every
position of `text` is covered by some chunk, the final chunk ends exactly
at `len(text)`, and the chunk count is
`ceil((len(text) - overlap) / (window - overlap))`. -/
theorem chunk_text_spec (text : List Char) (w o : Nat) (ho : 0 < o) (how : o < w) :
    (chunk_text text w o = [text] ↔ text.length ≤ w)
    ∧ (∀ c ∈ chunk_text text w o, c.length ≤ w)
    ∧ (w < text.length →
        (chunk_text text w o).length = (text.length - o + (w - o) - 1) / (w - o)
        ∧ (∀ i, i < (chunk_text text w o).length →
            (chunk_text text w o)[i]? = some ((text.drop (i * (w - o))).take w))
        ∧ (∀ i, i + 1 < (chunk_text text w o).length →
            ((text.drop (i * (w - o))).take w).length = w
            ∧ (i + 1) * (w - o) < i * (w - o) + w)
        ∧ (∀ p, p < text.length → ∃ i, i < (chunk_text text w o).length
            ∧ i * (w - o) ≤ p
            ∧ p < i * (w - o) + ((text.drop (i * (w - o))).take w).length)
        ∧ (chunk_text text w o).getLast? =
            some (text.drop (((chunk_text text w o).length - 1) * (w - o)))
        ∧ (((chunk_text text w o).length - 1) * (w - o)
            + (text.drop (((chunk_text text w o).length - 1) * (w - o))).length
            = text.length)) := by
  have hd : 0 < w - o := by omega
  refine ⟨?_, ?_, ?_⟩
  · constructor
    · intro hEq
      by_contra hgt
      have hlt : w < text.length := by omega
      have hcf := chunk_text_closed text w o ho how hlt
      have hn : chunkNumFrom text.length w o 0 =
          (text.length - w - 1) / (w - o) + 2 := by
        unfold chunkNumFrom
        rw [if_neg (by omega)]
        have : text.length - 0 - w - 1 = text.length - w - 1 := by omega
        rw [this]
      have hlen1 : (chunk_text text w o).length = 1 := by rw [hEq]; rfl
      rw [hcf, List.length_map, List.length_range, hn] at hlen1
      exact Nat.succ_succ_ne_one _ hlen1
    · intro h
      unfold chunk_text
      rw [if_pos h]
  · intro c hc
    by_cases hle : text.length ≤ w
    · unfold chunk_text at hc
      rw [if_pos hle] at hc
      simp only [List.mem_singleton] at hc
      subst hc
      exact hle
    · have hlt : w < text.length := by omega
      have hcf := chunk_text_closed text w o ho how hlt
      rw [hcf] at hc
      obtain ⟨i, hi, hfc⟩ := List.mem_map.mp hc
      rw [← hfc]
      simp only [List.length_take, List.length_drop]
      omega
  · intro hlt
    have hcf := chunk_text_closed text w o ho how hlt
    have hn : chunkNumFrom text.length w o 0 =
        (text.length - w - 1) / (w - o) + 2 := by
      unfold chunkNumFrom
      rw [if_neg (by omega)]
      have : text.length - 0 - w - 1 = text.length - w - 1 := by omega
      rw [this]
    have hlen : (chunk_text text w o).length = (text.length - w - 1) / (w - o) + 2 := by
      rw [hcf]
      simp only [List.length_map, List.length_range, hn]
    have hcount : (chunk_text text w o).length =
        (text.length - o + (w - o) - 1) / (w - o) := by
      rw [hlen]
      have hrw : text.length - o + (w - o) - 1
          = text.length - w - 1 + (w - o) + (w - o) := by omega
      rw [hrw, Nat.add_div_right _ hd, Nat.add_div_right _ hd]
    have hq1 : (text.length - w - 1) / (w - o) * (w - o) ≤ text.length - w - 1 :=
      Nat.div_mul_le_self (text.length - w - 1) (w - o)
    have hdm : (w - o) * ((text.length - w - 1) / (w - o))
        + (text.length - w - 1) % (w - o) = text.length - w - 1 :=
      Nat.div_add_mod (text.length - w - 1) (w - o)
    have hmod : (text.length - w - 1) % (w - o) < w - o :=
      Nat.mod_lt _ hd
    generalize hgen : (text.length - w - 1) / (w - o) = q at hn hlen hq1 hdm
    generalize hgen2 : (text.length - w - 1) % (w - o) = r at hdm hmod
    have hbr : (w - o) * q = q * (w - o) := Nat.mul_comm (w - o) q
    have hlast : (q + 1) * (w - o) = q * (w - o) + (w - o) := by ring
    have hup1 : text.length - w ≤ (q + 1) * (w - o) := by omega
    have hup2 : (q + 1) * (w - o) ≤ text.length - o - 1 := by omega
    refine ⟨hcount, ?_, ?_, ?_, ?_, ?_⟩
    · intro i hi
      rw [hlen] at hi
      rw [hcf]
      simp only [List.getElem?_map, List.getElem?_range, hn, hi, if_pos]
      rfl
    · intro i hi
      rw [hlen] at hi
      have hiq : i ≤ q := by omega
      have hmono : i * (w - o) ≤ q * (w - o) := Nat.mul_le_mul_right (w - o) hiq
      constructor
      · simp only [List.length_take, List.length_drop]
        omega
      · have hi1 : (i + 1) * (w - o) = i * (w - o) + (w - o) := by ring
        omega
    · intro p hp
      simp only [hlen]
      by_cases hcp : p / (w - o) < q + 2
      · refine ⟨p / (w - o), hcp, ?_, ?_⟩
        · exact Nat.div_mul_le_self p (w - o)
        · have h2 : (w - o) * (p / (w - o)) + p % (w - o) = p := Nat.div_add_mod p (w - o)
          have h3 : p % (w - o) < w - o := Nat.mod_lt _ hd
          have h4 : (w - o) * (p / (w - o)) = p / (w - o) * (w - o) :=
            Nat.mul_comm (w - o) (p / (w - o))
          simp only [List.length_take, List.length_drop]
          omega
      · refine ⟨q + 1, by omega, ?_, ?_⟩
        · have h5 : q + 1 ≤ p / (w - o) := by omega
          have h6 : (q + 1) * (w - o) ≤ p / (w - o) * (w - o) :=
            Nat.mul_le_mul_right (w - o) h5
          have h7 : p / (w - o) * (w - o) ≤ p := Nat.div_mul_le_self p (w - o)
          omega
        · simp only [List.length_take, List.length_drop]
          omega
    · have hq21 : q + 2 - 1 = q + 1 := by omega
      rw [hcf, List.getLast?_eq_getElem?]
      simp only [List.length_map, List.length_range, hn, hlen, hq21]
      have hidx : q + 1 < q + 2 := by omega
      simp only [List.getElem?_map, List.getElem?_range, hidx, if_pos, Option.map_some']
      have hsat : (text.drop ((q + 1) * (w - o))).take w = text.drop ((q + 1) * (w - o)) := by
        apply List.take_of_length_le
        simp only [List.length_drop]
        omega
      rw [hsat]
    · have hq21 : q + 2 - 1 = q + 1 := by omega
      rw [hlen, hq21]
      simp only [List.length_drop]
      omega

/-- Witness for C1 at `text = "abcde"`, `window = 3`, `overlap = 1`. -/
theorem chunk_text_spec_witness :
    0 < 1 ∧ 1 < 3
    ∧ (chunk_text "abcde".toList 3 1 = ["abcde".toList] ↔ "abcde".toList.length ≤ 3) :=
  ⟨by decide, by decide, (chunk_text_spec "abcde".toList 3 1 (by decide) (by decide)).1⟩

/-! ## Embedding aggregator (generate_embeddings.py, `process_sections` lines 209-261)

A section of the embeddings query is a `(title, content)` pair; the encoder is
an external collaborator modelled as a function `List Char → List ℚ`; float
arithmetic is modelled exactly over `ℚ`. -/

structure EmbSection where
  title : List Char
  content : List Char
deriving DecidableEq

/-- Line 217: `text = f"{title}\n\n{content}"`. -/
def sectionText (s : EmbSection) : List Char :=
  s.title ++ ('\n' :: '\n' :: s.content)

/-- Embeds `np.mean(vs, axis=0)`: elementwise arithmetic mean of equally-shaped
vectors (sum, then divide each component by the count). -/
def npMean (vs : List (List ℚ)) : List ℚ :=
  match vs with
  | [] => []
  | v :: rest =>
    (rest.foldl (fun a b => a.zipWith (fun x y => x + y) b) v).map
      (fun x => x / (vs.length : ℚ))

/-- Embeds `all_chunks` (lines 211-226): the chunks of every section of the batch,
appended in batch order. -/
def allChunks (batch : List EmbSection) : List (List Char) :=
  (batch.map (fun s => chunk_text (sectionText s) 6000 600)).flatten

/-- Embeds `chunk_to_section_map` (lines 212-225): the owning section index of each
chunk, in the same order as `allChunks`. -/
def chunkToSectionMap (batch : List EmbSection) : List Nat :=
  (batch.enum.map (fun p => (chunk_text (sectionText p.2) 6000 600).map (fun _ => p.1))).flatten

/-- The regroup-and-average loop (lines 239-256): walk the encoded chunks
with their owning-section indices, flushing the mean of the accumulated
chunks whenever the owning index changes, and flushing the final group at
the end when non-empty. -/
def regroupAux (pairs : List (List ℚ × Nat)) (cur : Nat) (pending : List (List ℚ))
    (out : List (List ℚ)) : List (List ℚ) :=
  match pairs with
  | [] => if pending.isEmpty then out else out ++ [npMean pending]
  | (e, sidx) :: rest =>
    if sidx ≠ cur then
      regroupAux rest sidx [e] (out ++ [npMean pending])
    else
      regroupAux rest cur (pending ++ [e]) out

/-- One batch of `process_sections`: build the flattened chunk list, encode
it in one batched call, regroup by owning section and mean-pool. Output
`j` is stored for section `j` of the batch (lines 258-261). -/
def processBatch (batch : List EmbSection) (encode : List Char → List ℚ) :
    List (List ℚ) :=
  regroupAux (((allChunks batch).map encode).zip (chunkToSectionMap batch)) 0 [] []

/-- Labelled concatenation of chunk groups, group `i` labelled `k + i`. -/
def pairsOf (gs : List (List (List ℚ))) (k : Nat) : List (List ℚ × Nat) :=
  match gs with
  | [] => []
  | g :: rest => g.map (fun e => (e, k)) ++ pairsOf rest (k + 1)

theorem zip_chunks_eq_pairsOf (encode : List Char → List ℚ) :
    ∀ (sections : List EmbSection) (k : Nat),
      (((sections.map (fun s => chunk_text (sectionText s) 6000 600)).flatten).map encode).zip
        (((sections.enumFrom k).map
          (fun p => (chunk_text (sectionText p.2) 6000 600).map (fun _ => p.1))).flatten)
      = pairsOf (sections.map (fun s => (chunk_text (sectionText s) 6000 600).map encode)) k := by
  intro sections
  induction sections with
  | nil => intro k; rfl
  | cons s ss ih =>
    intro k
    simp only [List.map_cons, List.flatten_cons, List.enumFrom, List.map_append, pairsOf]
    rw [List.zip_append (by simp)]
    rw [ih (k + 1)]
    congr 1
    rw [List.zip_map']
    simp [List.map_map, Function.comp]

theorem regroupAux_accum (rest : List (List ℚ × Nat)) (cur : Nat) :
    ∀ (g pending : List (List ℚ)) (out : List (List ℚ)),
      regroupAux ((g.map (fun e => (e, cur))) ++ rest) cur pending out
        = regroupAux rest cur (pending ++ g) out := by
  intro g
  induction g with
  | nil => intro pending out; simp [regroupAux]
  | cons e g ih =>
    intro pending out
    simp only [List.map_cons, List.cons_append]
    rw [regroupAux]
    rw [if_neg (by simp)]
    rw [ih (pending ++ [e]) out]
    simp [List.append_assoc]

theorem regroupAux_groups :
    ∀ (gs : List (List (List ℚ))) (k : Nat) (pending : List (List ℚ))
      (out : List (List ℚ)), pending ≠ [] → (∀ g ∈ gs, g ≠ []) →
      regroupAux (pairsOf gs (k + 1)) k pending out
        = out ++ [npMean pending] ++ gs.map npMean := by
  intro gs
  induction gs with
  | nil =>
    intro k pending out hp _
    simp only [pairsOf, regroupAux]
    rw [if_neg (by simp [List.isEmpty_iff, hp])]
    simp
  | cons g gs ih =>
    intro k pending out hp hne
    have hg : g ≠ [] := hne g (by simp)
    obtain ⟨e, g', rfl⟩ := List.exists_cons_of_ne_nil hg
    simp only [pairsOf, List.map_cons, List.cons_append]
    rw [regroupAux]
    rw [if_pos (by omega)]
    rw [regroupAux_accum]
    have : [e] ++ g' = e :: g' := rfl
    rw [this]
    rw [ih (k + 1) (e :: g') (out ++ [npMean pending]) (by simp)
      (fun g hg => hne g (by simp [hg]))]
    simp [List.append_assoc]

theorem chunk_text_ne_nil (t : List Char) (w o : Nat) (ho : 0 < o) (how : o < w) :
    chunk_text t w o ≠ [] := by
  by_cases hle : t.length ≤ w
  · unfold chunk_text
    rw [if_pos hle]
    simp
  · have hlt : w < t.length := by omega
    rw [chunk_text_closed t w o ho how hlt]
    have := chunkNumFrom_pos t.length w o 0
    simp only [ne_eq, List.map_eq_nil_iff, List.range_eq_nil]
    omega

/-- Lemma: `processBatch` equals the per-section chunk-mean map. -/
theorem processBatch_eq (batch : List EmbSection) (encode : List Char → List ℚ) :
    processBatch batch encode
      = batch.map (fun s => npMean ((chunk_text (sectionText s) 6000 600).map encode)) := by
  unfold processBatch allChunks chunkToSectionMap
  rw [show batch.enum = batch.enumFrom 0 from rfl]
  rw [zip_chunks_eq_pairsOf encode batch 0]
  cases batch with
  | nil => rfl
  | cons s ss =>
    simp only [List.map_cons, pairsOf]
    rw [regroupAux_accum]
    have hg : (chunk_text (sectionText s) 6000 600).map encode ≠ [] := by
      simp only [ne_eq, List.map_eq_nil_iff]
      exact chunk_text_ne_nil (sectionText s) 6000 600 (by omega) (by omega)
    rw [show ([] : List (List ℚ)) ++ (chunk_text (sectionText s) 6000 600).map encode
        = (chunk_text (sectionText s) 6000 600).map encode from rfl]
    rw [regroupAux_groups (ss.map (fun s => (chunk_text (sectionText s) 6000 600).map encode))
      0 _ [] hg ?_]
    · simp [List.map_map, Function.comp]
    · intro g hgmem
      simp only [List.mem_map] at hgmem
      obtain ⟨s', _, rfl⟩ := hgmem
      simp only [ne_eq, List.map_eq_nil_iff]
      exact chunk_text_ne_nil (sectionText s') 6000 600 (by omega) (by omega)

theorem npMean_length (vs : List (List ℚ)) (dim : Nat) (hne : vs ≠ [])
    (hdim : ∀ v ∈ vs, v.length = dim) : (npMean vs).length = dim := by
  obtain ⟨v, rest, rfl⟩ := List.exists_cons_of_ne_nil hne
  unfold npMean
  rw [List.length_map]
  have : ∀ (r : List (List ℚ)) (a : List ℚ), a.length = dim → (∀ u ∈ r, u.length = dim) →
      (r.foldl (fun a b => a.zipWith (fun x y => x + y) b) a).length = dim := by
    intro r
    induction r with
    | nil => intro a ha _; exact ha
    | cons u r ih =>
      intro a ha hr
      simp only [List.foldl_cons]
      apply ih
      · rw [List.length_zipWith, ha, hr u (by simp)]
        omega
      · intro x hx; exact hr x (by simp [hx])
  exact this rest v (hdim v (by simp)) (fun u hu => hdim u (by simp [hu]))

theorem npMean_singleton (v : List ℚ) : npMean [v] = v := by
  unfold npMean
  simp

/-- C2: for a non-empty batch, `process_sections` produces exactly one
vector per section of the batch, in batch order; the vector of section `j`
is the elementwise arithmetic mean of the encoder outputs on the chunks of
`title + "\n\n" + content`; for a single-chunk section it is that chunk's
encoding; and every output vector has the encoder's declared dimension. -/
theorem process_sections_spec (batch : List EmbSection) (encode : List Char → List ℚ)
    (dim : Nat) (hne : batch ≠ []) (hdim : ∀ t, (encode t).length = dim) :
    (processBatch batch encode).length = batch.length
    ∧ (∀ j (hj : j < batch.length),
        (processBatch batch encode)[j]? =
          some (npMean ((chunk_text (sectionText (batch.get ⟨j, hj⟩)) 6000 600).map encode)))
    ∧ (∀ v ∈ processBatch batch encode, v.length = dim)
    ∧ (∀ j (hj : j < batch.length) (c : List Char),
        chunk_text (sectionText (batch.get ⟨j, hj⟩)) 6000 600 = [c] →
          (processBatch batch encode)[j]? = some (encode c)) := by
  have hpe := processBatch_eq batch encode
  refine ⟨?_, ?_, ?_, ?_⟩
  · rw [hpe, List.length_map]
  · intro j hj
    rw [hpe]
    rw [List.getElem?_map]
    rw [List.getElem?_eq_getElem hj]
    rfl
  · intro v hv
    rw [hpe] at hv
    obtain ⟨s, _, rfl⟩ := List.mem_map.mp hv
    apply npMean_length _ dim
    · simp only [ne_eq, List.map_eq_nil_iff]
      exact chunk_text_ne_nil (sectionText s) 6000 600 (by omega) (by omega)
    · intro u hu
      obtain ⟨c, _, rfl⟩ := List.mem_map.mp hu
      exact hdim c
  · intro j hj c hc
    rw [hpe, List.getElem?_map, List.getElem?_eq_getElem hj]
    simp only [Option.map_some']
    have hc' : chunk_text (sectionText batch[j]) 6000 600 = [c] := hc
    rw [hc']
    simp only [List.map_cons, List.map_nil, npMean_singleton]

/-- Witness for C2: one section whose title is "T" and content "c", encoder
mapping a text to the one-dimensional vector `[len(text)]`. -/
theorem process_sections_spec_witness :
    ([⟨"T".toList, "c".toList⟩] : List EmbSection) ≠ []
    ∧ (∀ t : List Char, ([(t.length : ℚ)]).length = 1)
    ∧ (processBatch [⟨"T".toList, "c".toList⟩]
        (fun t => [(t.length : ℚ)])).length
        = ([⟨"T".toList, "c".toList⟩] : List EmbSection).length :=
  ⟨by decide, fun t => rfl,
    (process_sections_spec [⟨"T".toList, "c".toList⟩] (fun t => [(t.length : ℚ)]) 1
      (by decide) (fun t => rfl)).1⟩

/-! ## Validator (validate_extraction.py)

Rows of the three tables consulted by the validator.  Pages and stored depth
are SQLite INTEGER columns, modelled as `Int`.  The `ORDER BY` clauses of
the queries affect only the order in which issues are appended, never which
issues are produced; the model keeps the stored order except for
`check_page_numbers`, whose gap check depends on the page-start order. -/

structure VSection where
  id : Nat
  language : String
  number : String
  parent : Option String
  pageStart : Int
  pageEnd : Int
  depth : Int
deriving DecidableEq

structure VCode where
  sectionId : Nat
  language : String
deriving DecidableEq

structure VTable where
  sectionId : Nat
  language : String
deriving DecidableEq

structure VDB where
  sections : List VSection
  codeExamples : List VCode
  tables : List VTable
deriving DecidableEq

/-- One validation finding; the Python code stores formatted strings, the
model keeps the same data as a tagged value. -/
inductive Issue where
  | depthMismatch (number : String) (stored expected : Int)
  | parentMismatch (number : String) (stored : Option String) (expected : String)
  | topLevelHasParent (number : String) (parent : String)
  | duplicateNumber (number : String) (count : Nat)
  | invalidPageRange (number : String) (pageStart pageEnd : Int)
  | invalidPageStart (number : String) (pageStart : Int)
  | largePageGap (gap : Int) (fromNumber toNumber : String)
  | orphanedParent (number : String) (parent : String)
  | orphanedCode (count : Nat)
  | orphanedTables (count : Nat)
deriving DecidableEq

/-- The `self.issues` dict: lists keyed `critical` / `warning` / `info`. -/
structure Issues where
  critical : List Issue
  warning : List Issue
  info : List Issue
deriving DecidableEq

def Issues.append (a b : Issues) : Issues :=
  ⟨a.critical ++ b.critical, a.warning ++ b.warning, a.info ++ b.info⟩

/-- Embeds `section_num.count('.')`. -/
def dotCount (s : String) : Nat := s.toList.count '.'

/-- Embeds `'.'.join(section_num.split('.')[:-1])`. -/
def parentOf (s : String) : String :=
  (List.intercalate ['.'] ((s.toList.splitOn '.').dropLast)).asString

/-- The optional `WHERE language = ?` filter of every validator query. -/
def filterLang (lang : Option String) (rows : List VSection) : List VSection :=
  match lang with
  | none => rows
  | some l => rows.filter (fun r => r.language == l)

def langMatches (lang : Option String) (l : String) : Bool :=
  match lang with
  | none => true
  | some x => l == x

/-- Embeds `check_section_hierarchy`, one row (lines 86-114): depth mismatch is a
warning; parent mismatch for `depth > 0` is critical; a top-level section
with a parent is a warning. -/
def hierarchyRowIssues (r : VSection) : Issues :=
  let warnDepth :=
    if r.depth ≠ (dotCount r.number : Int) then
      [Issue.depthMismatch r.number r.depth (dotCount r.number : Int)]
    else []
  if 0 < r.depth then
    ⟨if r.parent ≠ some (parentOf r.number) then
        [Issue.parentMismatch r.number r.parent (parentOf r.number)]
      else [],
     warnDepth, []⟩
  else
    ⟨[],
     warnDepth ++ (match r.parent with
       | some p => [Issue.topLevelHasParent r.number p]
       | none => []), []⟩

def checkSectionHierarchy (db : VDB) (lang : Option String) : Issues :=
  let rows := filterLang lang db.sections
  ⟨(rows.map (fun r => (hierarchyRowIssues r).critical)).flatten,
   (rows.map (fun r => (hierarchyRowIssues r).warning)).flatten, []⟩

/-- Embeds `check_duplicates`: one critical issue per section number occurring more
than once among the (language-filtered) rows. -/
def checkDuplicates (db : VDB) (lang : Option String) : Issues :=
  let nums := (filterLang lang db.sections).map (fun r => r.number)
  ⟨(nums.dedup.filter (fun n => 1 < nums.count n)).map
      (fun n => Issue.duplicateNumber n (nums.count n)), [], []⟩

def insertByPageStart (r : VSection) : List VSection → List VSection
  | [] => [r]
  | x :: xs => if r.pageStart ≤ x.pageStart then r :: x :: xs else x :: insertByPageStart r xs

/-- Embeds the `ORDER BY page_start` of `check_page_numbers`. -/
def sortByPageStart (rows : List VSection) : List VSection :=
  rows.foldr insertByPageStart []

/-- Embeds `check_page_numbers` (lines 136-177): critical for `page_start > page_end`
or `page_start <= 0`; warning for a gap of more than 50 pages between
page-start-consecutive sections. -/
def checkPageNumbers (db : VDB) (lang : Option String) : Issues :=
  let rows := sortByPageStart (filterLang lang db.sections)
  ⟨(rows.map (fun r =>
      (if r.pageEnd < r.pageStart then
          [Issue.invalidPageRange r.number r.pageStart r.pageEnd] else [])
      ++ (if r.pageStart ≤ 0 then [Issue.invalidPageStart r.number r.pageStart] else []))).flatten,
   ((rows.zip rows.tail).map (fun p =>
      if 50 < p.2.pageStart - p.1.pageEnd then
        [Issue.largePageGap (p.2.pageStart - p.1.pageEnd) p.1.number p.2.number]
      else [])).flatten, []⟩

/-- Embeds `check_parent_references`: warning for each row whose `parent_section`
names a number with no matching section row (same language when filtered). -/
def checkParentRefs (db : VDB) (lang : Option String) : Issues :=
  let withParents := (filterLang lang db.sections).filter (fun r => r.parent.isSome)
  ⟨[],
   (withParents.map (fun r =>
      match r.parent with
      | none => []
      | some p =>
        if (db.sections.filter (fun s2 => s2.number == p && langMatches lang s2.language)).length = 0
        then [Issue.orphanedParent r.number p]
        else [])).flatten, []⟩

/-- Embeds `check_code_associations`: one critical issue counting the code examples
whose `section_id` matches no section row. -/
def checkCodeAssoc (db : VDB) (lang : Option String) : Issues :=
  let orphans := (db.codeExamples.filter (fun ce =>
      langMatches lang ce.language && db.sections.all (fun s => s.id != ce.sectionId))).length
  ⟨if 0 < orphans then [Issue.orphanedCode orphans] else [], [], []⟩

/-- Embeds `check_table_associations`: same for table rows. -/
def checkTableAssoc (db : VDB) (lang : Option String) : Issues :=
  let orphans := (db.tables.filter (fun t =>
      langMatches lang t.language && db.sections.all (fun s => s.id != t.sectionId))).length
  ⟨if 0 < orphans then [Issue.orphanedTables orphans] else [], [], []⟩

/-- Embeds `validate_all` (lines 45-70): run the checks in order, accumulating
into the shared issue dict, then print the report; the issue dict is the
returned data. -/
def validateAll (db : VDB) (lang : Option String) : Issues :=
  (((((checkSectionHierarchy db lang).append (checkDuplicates db lang)).append
    (checkPageNumbers db lang)).append (checkParentRefs db lang)).append
    (checkCodeAssoc db lang)).append (checkTableAssoc db lang)

/-- The value computed at the end of `print_report` (lines 359-370):
1 when critical issues exist, else 0. -/
def printReportStatus (issues : Issues) : Nat :=
  if issues.critical ≠ [] then 1 else 0

/-- Embeds `main` (lines 373-395): it calls `validator.validate_all(args.language)`,
discards the returned report (and the value `print_report` computed), and
falls off the end, so the interpreter exits with status 0. -/
def validateMainExit (db : VDB) (lang : Option String) : Nat :=
  let _ := validateAll db lang
  0

/-- A store holding one section whose stored parent contradicts its number:
a critical issue for the validator. -/
def vdbCritical : VDB :=
  ⟨[⟨1, "verilog", "1.1", none, 1, 1, 1⟩], [], []⟩

/-- C3: the spec promises a nonzero exit status iff a critical issue exists,
but `main` discards both the report of `validate_all` and the status value
computed by `print_report` and falls off the end: the process exits 0 even
when critical issues exist.  `vdbCritical` is such a failing input. -/
theorem validate_exit_code :
    (∀ (db : VDB) (lang : Option String), validateMainExit db lang = 0)
    ∧ (validateAll vdbCritical none).critical ≠ []
    ∧ printReportStatus (validateAll vdbCritical none) = 1
    ∧ validateMainExit vdbCritical none = 0 :=
  ⟨fun _ _ => rfl, by decide, by decide, rfl⟩

/-- A store holding one section whose stored depth (0) contradicts its
number ("1.2", one dot). -/
def vdbDepth : VDB :=
  ⟨[⟨1, "verilog", "1.2", none, 1, 1, 0⟩], [], []⟩

/-- C4 counterexample: a depth/dot-count mismatch produces no critical
issue at all — the issue lands in the warning list. -/
theorem depth_mismatch_cex :
    (0 : Int) ≠ (dotCount "1.2" : Int)
    ∧ (validateAll vdbDepth none).critical = []
    ∧ Issue.depthMismatch "1.2" 0 (dotCount "1.2" : Int)
        ∈ (validateAll vdbDepth none).warning := by
  refine ⟨by decide, by decide, by decide⟩

def isDepthIssue : Issue → Bool
  | .depthMismatch _ _ _ => true
  | _ => false

theorem validateAll_critical_no_depth (db : VDB) (lang : Option String) :
    ∀ x ∈ (validateAll db lang).critical, isDepthIssue x = false := by
  intro x hx
  unfold validateAll Issues.append at hx
  simp only [List.mem_append] at hx
  rcases hx with ((((hx | hx) | hx) | hx) | hx) | hx
  · unfold checkSectionHierarchy at hx
    simp only [List.mem_flatten, List.mem_map] at hx
    obtain ⟨l, ⟨r, _, rfl⟩, hxl⟩ := hx
    unfold hierarchyRowIssues at hxl
    repeat' split at hxl
    all_goals simp_all [isDepthIssue]
  · unfold checkDuplicates at hx
    simp only [List.mem_map] at hx
    obtain ⟨n, _, rfl⟩ := hx
    rfl
  · unfold checkPageNumbers at hx
    simp only [List.mem_flatten, List.mem_map] at hx
    obtain ⟨l, ⟨r, _, rfl⟩, hxl⟩ := hx
    simp only [List.mem_append] at hxl
    rcases hxl with hxl | hxl
    · repeat' split at hxl
      all_goals simp_all [isDepthIssue]
    · repeat' split at hxl
      all_goals simp_all [isDepthIssue]
  · exact absurd hx (List.not_mem_nil x)
  · simp only [checkCodeAssoc] at hx
    split at hx
    · simp only [List.mem_singleton] at hx
      subst hx; rfl
    · exact absurd hx (List.not_mem_nil x)
  · simp only [checkTableAssoc] at hx
    split at hx
    · simp only [List.mem_singleton] at hx
      subst hx; rfl
    · exact absurd hx (List.not_mem_nil x)

/-- C4 (amended): for every stored section whose stored depth differs from
the dot-count of its number, the validator records the mismatch in the
warning category, and no depth-mismatch issue is ever recorded as
critical. -/
theorem depth_mismatch_is_warning (db : VDB) (lang : Option String) (r : VSection)
    (hmem : r ∈ filterLang lang db.sections)
    (hmm : r.depth ≠ (dotCount r.number : Int)) :
    Issue.depthMismatch r.number r.depth (dotCount r.number : Int)
      ∈ (validateAll db lang).warning
    ∧ (∀ x ∈ (validateAll db lang).critical, isDepthIssue x = false) := by
  refine ⟨?_, validateAll_critical_no_depth db lang⟩
  unfold validateAll Issues.append
  simp only [List.mem_append]
  refine Or.inl (Or.inl (Or.inl (Or.inl (Or.inl ?_))))
  unfold checkSectionHierarchy
  simp only [List.mem_flatten, List.mem_map]
  refine ⟨(hierarchyRowIssues r).warning, ⟨r, hmem, rfl⟩, ?_⟩
  unfold hierarchyRowIssues
  split
  · split
    · simp
    · simp
  · exact absurd hmm (by assumption)

/-- Witness for C4's amended theorem at `vdbDepth`. -/
theorem depth_mismatch_is_warning_witness :
    (⟨1, "verilog", "1.2", none, 1, 1, 0⟩ : VSection) ∈ filterLang none vdbDepth.sections
    ∧ ((0 : Int) ≠ (dotCount "1.2" : Int))
    ∧ Issue.depthMismatch "1.2" 0 (dotCount "1.2" : Int)
        ∈ (validateAll vdbDepth none).warning :=
  ⟨by decide, by decide,
    (depth_mismatch_is_warning vdbDepth none ⟨1, "verilog", "1.2", none, 1, 1, 0⟩
      (by decide) (by decide)).1⟩

/-! ## Parser storage (parse_lrm.py, `store_in_database`, lines 399-502)

The SQLite database, with the schema of src/parser/tests/test_parser.py
(the only schema in the repository): `UNIQUE(language, section_number)` on
`sections`, and `FOREIGN KEY(section_id) ... ON DELETE CASCADE` on
`code_examples` and `tables`.  `store_in_database` opens its connection
with plain `sqlite3.connect` and never issues `PRAGMA foreign_keys = ON`,
so SQLite does not enforce foreign keys on this connection and the declared
`ON DELETE CASCADE` does not fire: a `DELETE FROM sections` removes only
section rows.  All writes happen in one implicit transaction committed at
the end; any exception triggers `rollback` and re-raises. -/

structure PSectionIn where
  number : String
  parent : Option String
  title : String
  content : String
  pageStart : Int
  pageEnd : Int
  depth : Int
deriving DecidableEq

structure PCodeIn where
  code : String
  description : Option String
  lineStart : Int
deriving DecidableEq

structure PTableIn where
  caption : Option String
  markdown : String
deriving DecidableEq

structure SectionRow where
  id : Nat
  language : String
  number : String
  parent : Option String
  title : String
  content : String
  pageStart : Int
  pageEnd : Int
  depth : Int
deriving DecidableEq

structure CodeRow where
  sectionId : Nat
  language : String
  code : String
  description : Option String
  lineStart : Int
deriving DecidableEq

structure TableRow where
  sectionId : Nat
  language : String
  caption : Option String
  contentJson : String
  markdown : String
deriving DecidableEq

/-- One `parse_metadata` row; the claims never consult its payload, so only the
language column is kept. -/
structure MetaRow where
  language : String
deriving DecidableEq

structure ParseDB where
  sections : List SectionRow
  codeExamples : List CodeRow
  tables : List TableRow
  parseMetadata : List MetaRow
  nextId : Nat
deriving DecidableEq

/-- The writes `store_in_database` issues, in program order. -/
inductive WriteOp where
  | deleteSections (language : String)
  | insertSection (language : String) (s : PSectionIn)
  | insertCode (language : String) (number : String) (c : PCodeIn)
  | insertTable (language : String) (number : String) (t : PTableIn)
  | insertMeta (m : MetaRow)
deriving DecidableEq

/-- Embeds the `section_ids` dict lookup; insertion conses, so the most recent
assignment for a number wins, like a Python dict overwrite. -/
def lookupId (m : List (String × Nat)) (n : String) : Option Nat :=
  match m with
  | [] => none
  | (k, v) :: rest => if k == n then some v else lookupId rest n

def applyOp (st : ParseDB × List (String × Nat)) (op : WriteOp) :
    Except String (ParseDB × List (String × Nat)) :=
  match op with
  | .deleteSections lang =>
    Except.ok ({ st.1 with sections := st.1.sections.filter (fun r => r.language != lang) }, st.2)
  | .insertSection lang s =>
    if st.1.sections.any (fun r => r.language == lang && r.number == s.number) then
      Except.error "UNIQUE constraint failed: sections.language, sections.section_number"
    else
      Except.ok ({ st.1 with
        sections := st.1.sections ++
          [⟨st.1.nextId, lang, s.number, s.parent, s.title, s.content,
            s.pageStart, s.pageEnd, s.depth⟩],
        nextId := st.1.nextId + 1 },
        (s.number, st.1.nextId) :: st.2)
  | .insertCode lang num c =>
    match lookupId st.2 num with
    | none => Except.ok st
    | some sid =>
      if sid = 0 then Except.ok st
      else Except.ok ({ st.1 with
        codeExamples := st.1.codeExamples ++ [⟨sid, lang, c.code, c.description, c.lineStart⟩] },
        st.2)
  | .insertTable lang num t =>
    match lookupId st.2 num with
    | none => Except.ok st
    | some sid =>
      if sid = 0 then Except.ok st
      else Except.ok ({ st.1 with
        tables := st.1.tables ++ [⟨sid, lang, t.caption, "[]", t.markdown⟩] },
        st.2)
  | .insertMeta m =>
    Except.ok ({ st.1 with parseMetadata := st.1.parseMetadata ++ [m] }, st.2)

/-- The write batch of one run, in the order the code issues it: the
per-language delete, then sections, code examples, tables, metadata. -/
def buildOps (lang : String) (sections : List PSectionIn)
    (codeBySection : List (String × List PCodeIn))
    (tablesBySection : List (String × List PTableIn)) : List WriteOp :=
  [WriteOp.deleteSections lang]
  ++ sections.map (WriteOp.insertSection lang)
  ++ (codeBySection.map (fun p => p.2.map (WriteOp.insertCode lang p.1))).flatten
  ++ (tablesBySection.map (fun p => p.2.map (WriteOp.insertTable lang p.1))).flatten
  ++ [WriteOp.insertMeta ⟨lang⟩]

/-- Execute the batch on the uncommitted transaction state.  `failAt`
injects an external write failure right before the op with that index
(modelling a storage error); a constraint violation raises on its own. -/
def runOps (st : ParseDB × List (String × Nat)) (ops : List WriteOp) (failAt : Option Nat) :
    Except String ParseDB :=
  match ops with
  | [] => Except.ok st.1
  | op :: rest =>
    match failAt with
    | some 0 => Except.error "injected write failure"
    | _ =>
      match applyOp st op with
      | .error e => Except.error e
      | .ok st2 => runOps st2 rest (failAt.map (fun n => n - 1))

/-- Embeds `store_in_database`: run the batch in one transaction; commit on
success, roll back (leaving the committed store untouched) and fail on any
exception.  The result is the committed store plus a success flag. -/
def storeInDatabase (db : ParseDB) (lang : String) (sections : List PSectionIn)
    (codeBySection : List (String × List PCodeIn))
    (tablesBySection : List (String × List PTableIn)) (failAt : Option Nat) :
    ParseDB × Bool :=
  match runOps (db, []) (buildOps lang sections codeBySection tablesBySection) failAt with
  | .ok db2 => (db2, true)
  | .error _ => (db, false)

theorem runOps_fails (ops : List WriteOp) :
    ∀ (st : ParseDB × List (String × Nat)) (i : Nat), i < ops.length →
      ∃ e, runOps st ops (some i) = Except.error e := by
  induction ops with
  | nil => intro st i hi; simp at hi
  | cons op rest ih =>
    intro st i hi
    cases i with
    | zero => exact ⟨"injected write failure", rfl⟩
    | succ i =>
      unfold runOps
      cases happ : applyOp st op with
      | error e => exact ⟨e, rfl⟩
      | ok st2 =>
        obtain ⟨e, he⟩ := ih st2 i (by simpa using hi)
        exact ⟨e, by simpa [happ] using he⟩

/-- C7: if any write of the storage step fails — the injected failure may
hit the initial delete, any insert, or the metadata write — the whole
batch is rolled back: the committed store is exactly the pre-run store
and the run fails. -/
theorem store_rollback (db : ParseDB) (lang : String) (sections : List PSectionIn)
    (codeBySection : List (String × List PCodeIn))
    (tablesBySection : List (String × List PTableIn)) (i : Nat)
    (hi : i < (buildOps lang sections codeBySection tablesBySection).length) :
    storeInDatabase db lang sections codeBySection tablesBySection (some i) = (db, false) := by
  obtain ⟨e, he⟩ := runOps_fails (buildOps lang sections codeBySection tablesBySection)
    (db, []) i hi
  unfold storeInDatabase
  rw [he]

/-- The empty store with first rowid 1. -/
def pdb0 : ParseDB := ⟨[], [], [], [], 1⟩

/-- Witness for C7: injected failure at the very first write (the delete)
of a run on the empty store. -/
theorem store_rollback_witness :
    0 < (buildOps "verilog" [⟨"1", none, "t", "c", 1, 1, 0⟩] [] []).length
    ∧ storeInDatabase pdb0 "verilog" [⟨"1", none, "t", "c", 1, 1, 0⟩] [] [] (some 0)
        = (pdb0, false) :=
  ⟨by decide,
    store_rollback pdb0 "verilog" [⟨"1", none, "t", "c", 1, 1, 0⟩] [] [] 0 (by decide)⟩

/-- C5: the storage step performs no pre-insert deduplication.  Two
extracted sections with the same number hit the UNIQUE(language,
section_number) constraint: the second insert raises, the transaction is
rolled back and the run fails — nothing is kept, no warning is recorded,
and the run does not complete. -/
theorem store_duplicate_numbers_fail :
    storeInDatabase pdb0 "verilog"
      [⟨"1", none, "First", "Content 1", 1, 2, 0⟩, ⟨"1", none, "Second", "Content 2", 3, 4, 0⟩]
      [] [] none
      = (pdb0, false) := by decide

/-- A store holding one verilog and one systemverilog section, each owning
a code example, the verilog one owning a table. -/
def pdbC6 : ParseDB :=
  ⟨[⟨1, "verilog", "1", none, "t", "c", 1, 1, 0⟩,
    ⟨2, "systemverilog", "1", none, "t", "c", 1, 1, 0⟩],
   [⟨1, "verilog", "old code", none, 0⟩, ⟨2, "systemverilog", "sv code", none, 0⟩],
   [⟨1, "verilog", none, "[]", "|t|"⟩],
   [], 3⟩

/-- C6: re-ingesting verilog deletes the verilog section rows and leaves
other languages alone, but the delete does not cascade: the code example
and table owned by the deleted verilog section survive as orphans, because
the storage connection never enables `PRAGMA foreign_keys`. -/
theorem delete_does_not_cascade :
    (storeInDatabase pdbC6 "verilog" [⟨"2", none, "t2", "c2", 5, 6, 0⟩] [] [] none).2 = true
    ∧ (∀ s ∈ (storeInDatabase pdbC6 "verilog" [⟨"2", none, "t2", "c2", 5, 6, 0⟩] [] [] none).1.sections,
        s.id ≠ 1)
    ∧ (⟨1, "verilog", "old code", none, 0⟩ : CodeRow)
        ∈ (storeInDatabase pdbC6 "verilog" [⟨"2", none, "t2", "c2", 5, 6, 0⟩] [] [] none).1.codeExamples
    ∧ (⟨1, "verilog", none, "[]", "|t|"⟩ : TableRow)
        ∈ (storeInDatabase pdbC6 "verilog" [⟨"2", none, "t2", "c2", 5, 6, 0⟩] [] [] none).1.tables
    ∧ (⟨2, "systemverilog", "1", none, "t", "c", 1, 1, 0⟩ : SectionRow)
        ∈ (storeInDatabase pdbC6 "verilog" [⟨"2", none, "t2", "c2", 5, 6, 0⟩] [] [] none).1.sections
    ∧ (⟨2, "systemverilog", "sv code", none, 0⟩ : CodeRow)
        ∈ (storeInDatabase pdbC6 "verilog" [⟨"2", none, "t2", "c2", 5, 6, 0⟩] [] [] none).1.codeExamples := by
  refine ⟨by decide, by decide, by decide, by decide, by decide, by decide⟩

/-! ## Section builder (parse_lrm.py, `extract_sections`, lines 140-212,
and docling_utils.py, `extract_section_number`, lines 88-112)

Document items are the closed variant the extractor consumes: headings and
body text, each with an optional page number. -/

inductive DocItem where
  | heading (text : List Char) (page : Option Int)
  | body (text : List Char) (page : Option Int)
deriving DecidableEq

/-- Python `str.strip()`. -/
def stripChars (t : List Char) : List Char :=
  ((t.dropWhile Char.isWhitespace).reverse.dropWhile Char.isWhitespace).reverse

/-- The `(?:\.\d+)*` part of the pattern `^(\d+(?:\.\d+)*)\s+`: consume
`.digits` groups while they are present.  (Regex backtracking never helps
here: dropping a group leaves a dot, never whitespace, so the greedy parse
is exact.)  Fuel-structural; called with the remaining length. -/
def parseDotGroups : Nat → List Char → List Char × List Char
  | 0, rest => ([], rest)
  | fuel + 1, rest =>
    match rest with
    | '.' :: c :: cs =>
      if c.isDigit then
        let ds := (c :: cs).takeWhile Char.isDigit
        let r := parseDotGroups fuel ((c :: cs).drop ds.length)
        ('.' :: ds ++ r.1, r.2)
      else ([], rest)
    | _ => ([], rest)

/-- Embeds `extract_section_number(text)`: match `^(\d+(?:\.\d+)*)\s+` against the
stripped heading text, returning the dotted numeric label or `none`. -/
def extract_section_number (t : List Char) : Option (List Char) :=
  let s := stripChars t
  let ds := s.takeWhile Char.isDigit
  if ds.isEmpty then none
  else
    let r := parseDotGroups (s.drop ds.length).length (s.drop ds.length)
    match r.2 with
    | c :: _ => if c.isWhitespace then some (ds ++ r.1) else none
    | [] => none

/-- Line 180: `f"unnumbered_{len(sections)}"`. -/
def placeholderId (k : Nat) : String :=
  "unnumbered_" ++ Nat.repr k

/-- A section under construction / in the output list; `content` is the
buffer of body-text pieces (joined with blank lines only after the loop,
lines 207-209, which rewrites no other field). -/
structure BSection where
  number : String
  parent : Option String
  title : List Char
  pageStart : Int
  pageEnd : Int
  depth : Nat
  content : List (List Char)
deriving DecidableEq

/-- Close the open section when it has accumulated content
(lines 162-164 and 203-205). -/
def flushSection (st : List BSection × Option BSection) : List BSection :=
  match st.2 with
  | some cur => if cur.content ≠ [] then st.1 ++ [cur] else st.1
  | none => st.1

/-- Line 168, `page = get_page_number(item) or 1`: `None` and `0` are
falsy. -/
def headingPage (page : Option Int) : Int :=
  match page with
  | none => 1
  | some p => if p = 0 then 1 else p

/-- Open a new section for a heading (lines 167-190); `k` is the number of
sections already emitted. -/
def newSection (text : List Char) (pg : Int) (k : Nat) : BSection :=
  match extract_section_number text with
  | some num =>
    ⟨num.asString,
     (if 0 < num.count '.' then
        some ((List.intercalate ['.'] ((num.splitOn '.').dropLast)).asString)
      else none),
     text, pg, pg, num.count '.', []⟩
  | none => ⟨placeholderId k, none, text, pg, pg, 0, []⟩

/-- Body text while a section is open (lines 191-201): append non-blank
text to the content buffer, and raise `page_end` when the item has a
truthy page number beyond it. -/
def bodyUpdate (cur : BSection) (text : List Char) (page : Option Int) : BSection :=
  let cur2 :=
    if stripChars text ≠ [] then { cur with content := cur.content ++ [text] } else cur
  match page with
  | some p => if p ≠ 0 ∧ cur2.pageEnd < p then { cur2 with pageEnd := p } else cur2
  | none => cur2

/-- One step of the extraction loop (lines 160-201). -/
def stepItem (st : List BSection × Option BSection) (item : DocItem) :
    List BSection × Option BSection :=
  match item with
  | .heading text page =>
    (flushSection st, some (newSection text (headingPage page) (flushSection st).length))
  | .body text page =>
    match st.2 with
    | none => st
    | some cur => (st.1, some (bodyUpdate cur text page))

/-- Embeds `extract_sections`: fold the item stream, then flush a non-empty open
section at stream end (lines 203-205). -/
def extract_sections (items : List DocItem) : List BSection :=
  flushSection (items.foldl stepItem ([], none))

/-- Invariant: every emitted unnumbered section at index `i` carries the
placeholder for `i`; an open unnumbered section carries the placeholder for
the current output length. -/
def unnumberedOk (sections : List BSection) (cur : Option BSection) : Prop :=
  (∀ i (h : i < sections.length),
      extract_section_number (sections.get ⟨i, h⟩).title = none →
        (sections.get ⟨i, h⟩).number = placeholderId i
        ∧ (sections.get ⟨i, h⟩).depth = 0
        ∧ (sections.get ⟨i, h⟩).parent = none)
  ∧ (∀ c, cur = some c →
      extract_section_number c.title = none →
        c.number = placeholderId sections.length ∧ c.depth = 0 ∧ c.parent = none)

theorem flushSection_ok (st : List BSection × Option BSection)
    (h : unnumberedOk st.1 st.2) :
    ∀ i (hi : i < (flushSection st).length),
      extract_section_number ((flushSection st).get ⟨i, hi⟩).title = none →
        ((flushSection st).get ⟨i, hi⟩).number = placeholderId i
        ∧ ((flushSection st).get ⟨i, hi⟩).depth = 0
        ∧ ((flushSection st).get ⟨i, hi⟩).parent = none := by
  obtain ⟨h1, h2⟩ := h
  unfold flushSection
  split
  · rename_i c hcur
    dsimp only
    by_cases hc : c.content ≠ []
    · rw [if_pos hc]
      intro i hi hnone
      by_cases hlt : i < st.1.length
      · have hget : (st.1 ++ [c]).get ⟨i, hi⟩ = st.1.get ⟨i, hlt⟩ := by
          simp [List.getElem_append_left hlt]
        rw [hget] at hnone ⊢
        exact h1 i hlt hnone
      · have hlen : i < st.1.length + 1 := by
          have := hi
          simp only [List.length_append, List.length_singleton] at this
          exact this
        have hieq : i = st.1.length := by omega
        subst hieq
        have hget : (st.1 ++ [c]).get ⟨st.1.length, hi⟩ = c := by
          simp
        rw [hget] at hnone ⊢
        exact h2 c hcur hnone
    · rw [if_neg hc]
      exact h1
  · exact h1

theorem bodyUpdate_fields (cur : BSection) (text : List Char) (page : Option Int) :
    (bodyUpdate cur text page).number = cur.number
    ∧ (bodyUpdate cur text page).title = cur.title
    ∧ (bodyUpdate cur text page).depth = cur.depth
    ∧ (bodyUpdate cur text page).parent = cur.parent := by
  unfold bodyUpdate
  cases page <;> dsimp only <;> repeat' split
  all_goals simp

theorem newSection_title (text : List Char) (pg : Int) (k : Nat) :
    (newSection text pg k).title = text := by
  unfold newSection
  cases extract_section_number text <;> rfl

theorem newSection_unnumbered (text : List Char) (pg : Int) (k : Nat)
    (h : extract_section_number text = none) :
    (newSection text pg k).number = placeholderId k
    ∧ (newSection text pg k).depth = 0
    ∧ (newSection text pg k).parent = none := by
  unfold newSection
  rw [h]
  exact ⟨rfl, rfl, rfl⟩

theorem unnumberedOk_step (st : List BSection × Option BSection) (item : DocItem)
    (h : unnumberedOk st.1 st.2) :
    unnumberedOk (stepItem st item).1 (stepItem st item).2 := by
  cases item with
  | heading text page =>
    simp only [stepItem]
    refine ⟨flushSection_ok st h, ?_⟩
    intro c hc hnone
    obtain rfl : c = newSection text (headingPage page) (flushSection st).length :=
      Option.some.inj hc.symm
    rw [newSection_title] at hnone
    exact newSection_unnumbered text (headingPage page) (flushSection st).length hnone
  | body text page =>
    simp only [stepItem]
    cases hcur : st.2 with
    | none =>
      simp only [hcur]
      exact ⟨h.1, fun c hc => absurd (hcur ▸ hc) (by simp [hcur])⟩
    | some cur =>
      simp only [hcur]
      refine ⟨h.1, ?_⟩
      intro c hc hnone
      obtain rfl : c = bodyUpdate cur text page := Option.some.inj hc.symm
      obtain ⟨hn, ht, hdp, hpar⟩ := bodyUpdate_fields cur text page
      rw [ht] at hnone
      have hcc := h.2 cur hcur hnone
      rw [hn, hdp, hpar]
      exact hcc

theorem unnumberedOk_foldl (items : List DocItem) :
    ∀ st, unnumberedOk st.1 st.2 →
      unnumberedOk (items.foldl stepItem st).1 (items.foldl stepItem st).2 := by
  induction items with
  | nil => intro st h; exact h
  | cons item rest ih =>
    intro st h
    simp only [List.foldl_cons]
    exact ih (stepItem st item) (unnumberedOk_step st item h)

/-- Decimal evaluation of a digit string, used to invert `Nat.repr`. -/
def parseFromChars (acc : Nat) (cs : List Char) : Nat :=
  cs.foldl (fun a c => a * 10 + (c.toNat - 48)) acc

theorem digitChar_val (m : Nat) (h : m < 10) : (Nat.digitChar m).toNat - 48 = m := by
  interval_cases m <;> rfl

theorem toDigitsCore_parse :
    ∀ (fuel n : Nat) (ds : List Char), n < fuel →
      parseFromChars 0 (Nat.toDigitsCore 10 fuel n ds) = parseFromChars n ds := by
  intro fuel
  induction fuel with
  | zero => intro n ds h; omega
  | succ fuel ih =>
    intro n ds h
    unfold Nat.toDigitsCore
    by_cases hz : n / 10 = 0
    · rw [if_pos hz]
      have hlt : n < 10 := by omega
      have hmod : n % 10 = n := Nat.mod_eq_of_lt hlt
      show parseFromChars (0 * 10 + ((Nat.digitChar (n % 10)).toNat - 48)) ds
        = parseFromChars n ds
      rw [digitChar_val (n % 10) (by omega), hmod]
      norm_num
    · rw [if_neg hz]
      have hrec : n / 10 < fuel := by omega
      rw [ih (n / 10) (Nat.digitChar (n % 10) :: ds) hrec]
      show parseFromChars ((n / 10) * 10 + ((Nat.digitChar (n % 10)).toNat - 48)) ds
        = parseFromChars n ds
      rw [digitChar_val (n % 10) (by omega)]
      have : n / 10 * 10 + n % 10 = n := by omega
      rw [this]

theorem parse_repr (n : Nat) : parseFromChars 0 (Nat.repr n).data = n := by
  have hdata : (Nat.repr n).data = Nat.toDigits 10 n := rfl
  rw [hdata]
  unfold Nat.toDigits
  rw [toDigitsCore_parse (n + 1) n [] (Nat.lt_succ_self n)]
  rfl

theorem natRepr_inj : Function.Injective Nat.repr := by
  intro m n h
  have := congrArg (fun s => parseFromChars 0 (String.data s)) h
  simpa [parse_repr] using this

theorem placeholderId_inj : Function.Injective placeholderId := by
  intro a b h
  unfold placeholderId at h
  have hdata := congrArg String.data h
  rw [String.data_append, String.data_append] at hdata
  have hcancel := List.append_cancel_left hdata
  exact natRepr_inj (String.ext hcancel)

/-- C8: every heading whose text carries no leading dot-separated numeric
label opens a section with the synthetic identifier `unnumbered_{k}`,
`depth = 0` and `parent = None`; in the emitted list the identifier equals
the section's own output index, so no two sections of one run share a
placeholder identifier. -/
theorem unnumbered_sections_spec (items : List DocItem) :
    (∀ i (hi : i < (extract_sections items).length),
        extract_section_number ((extract_sections items).get ⟨i, hi⟩).title = none →
          ((extract_sections items).get ⟨i, hi⟩).number = placeholderId i
          ∧ ((extract_sections items).get ⟨i, hi⟩).depth = 0
          ∧ ((extract_sections items).get ⟨i, hi⟩).parent = none)
    ∧ (∀ i j (hi : i < (extract_sections items).length)
        (hj : j < (extract_sections items).length), i ≠ j →
        extract_section_number ((extract_sections items).get ⟨i, hi⟩).title = none →
        extract_section_number ((extract_sections items).get ⟨j, hj⟩).title = none →
        ((extract_sections items).get ⟨i, hi⟩).number
          ≠ ((extract_sections items).get ⟨j, hj⟩).number) := by
  have hinit : unnumberedOk ([] : List BSection) (none : Option BSection) := by
    constructor
    · intro i h
      simp at h
    · intro c hc
      cases hc
  have hinv := unnumberedOk_foldl items ([], none) hinit
  have hmain := flushSection_ok (items.foldl stepItem ([], none)) hinv
  unfold extract_sections
  refine ⟨hmain, ?_⟩
  intro i j hi hj hij hni hnj heq
  have h1 := (hmain i hi hni).1
  have h2 := (hmain j hj hnj).1
  rw [h1, h2] at heq
  exact hij (placeholderId_inj heq)

def itemsW : List DocItem :=
  [DocItem.heading "Intro".toList (some 1), DocItem.body "body text".toList (some 1)]

/-- Witness for C8: an unnumbered heading followed by body text yields one
section with the placeholder identifier `unnumbered_0`. -/
theorem unnumbered_sections_spec_witness :
    extract_section_number ((extract_sections itemsW).get ⟨0, by decide⟩).title = none
    ∧ ((extract_sections itemsW).get ⟨0, by decide⟩).number = placeholderId 0
    ∧ ((extract_sections itemsW).get ⟨0, by decide⟩).depth = 0
    ∧ ((extract_sections itemsW).get ⟨0, by decide⟩).parent = none :=
  ⟨by decide, (unnumbered_sections_spec itemsW).1 0 (by decide) (by decide)⟩

/-! ## Table extraction and dedup (parse_lrm.py, `extract_tables`, lines 322-385)

A table artifact carries the page of the Docling table object and the
markdown produced by `_table_to_markdown` (the empty string when the
conversion failed).  The md5 digest is an external collaborator, a
function parameter.  The per-run `seen_table_hashes` set starts empty on
every call; `tables_by_section` groups rows by section, modelled as a flat
list of stored rows carrying their section number. -/

structure TableArtifact where
  page : Option Int
  caption : Option String
  markdown : List Char
deriving DecidableEq

structure StoredTable where
  sectionNum : String
  caption : Option String
  markdown : List Char
deriving DecidableEq

structure TablesState where
  stored : List StoredTable
  seen : List String
  dups : Nat
deriving DecidableEq

/-- Lines 338-340: `page = get_page_number(table_obj); if not page: page = 1`. -/
def tablePage (page : Option Int) : Int :=
  match page with
  | none => 1
  | some p => if p = 0 then 1 else p

/-- Lines 343-350: first section whose page range contains the page, else
the last section, else none; the subsequent `if section_num:` makes an
empty-string number equivalent to no section. -/
def resolveSectionNum (sections : List BSection) (p : Int) : Option String :=
  let found :=
    match sections.find? (fun s => decide (s.pageStart ≤ p) && decide (p ≤ s.pageEnd)) with
    | some s => some s.number
    | none => none
  let resolved :=
    if (found = none ∨ found = some "") ∧ sections ≠ [] then sections.getLast?.map (fun s => s.number)
    else found
  match resolved with
  | some n => if n = "" then none else some n
  | none => none

/-- One artifact of the loop (lines 335-377): skip when no section or no
markdown; count and skip when the hash was already seen this run; store
and remember the hash otherwise. -/
def tableStep (sections : List BSection) (md5 : List Char → String)
    (st : TablesState) (art : TableArtifact) : TablesState :=
  match resolveSectionNum sections (tablePage art.page) with
  | none => st
  | some num =>
    if art.markdown = [] then st
    else
      if md5 art.markdown ∈ st.seen then
        { st with dups := st.dups + 1 }
      else
        ⟨st.stored ++ [⟨num, art.caption, art.markdown⟩],
         md5 art.markdown :: st.seen, st.dups⟩

/-- Embeds `extract_tables`: fold the artifacts with a fresh empty seen-set. -/
def extract_tables (sections : List BSection) (arts : List TableArtifact)
    (md5 : List Char → String) : TablesState :=
  arts.foldl (tableStep sections md5) ⟨[], [], 0⟩

theorem resolveSectionNum_isSome (sections : List BSection) (p : Int)
    (hsec : sections ≠ []) (hnum : ∀ s ∈ sections, s.number ≠ "") :
    ∃ n, resolveSectionNum sections p = some n := by
  unfold resolveSectionNum
  cases hfind : sections.find? (fun s => decide (s.pageStart ≤ p) && decide (p ≤ s.pageEnd)) with
  | some s =>
    have hmem : s ∈ sections := List.mem_of_find?_eq_some hfind
    have hs : s.number ≠ "" := hnum s hmem
    dsimp only
    rw [if_neg (by simp [hs])]
    exact ⟨s.number, by dsimp only; rw [if_neg hs]⟩
  | none =>
    have hlast : sections.getLast? = some (sections.getLast hsec) :=
      List.getLast?_eq_getLast sections hsec
    have hmem : sections.getLast hsec ∈ sections := List.getLast_mem hsec
    have hs : (sections.getLast hsec).number ≠ "" := hnum _ hmem
    dsimp only
    rw [if_pos (by exact ⟨Or.inl rfl, hsec⟩), hlast]
    exact ⟨(sections.getLast hsec).number, by
      rw [Option.map_some']
      dsimp only
      rw [if_neg hs]⟩

/-- Run invariant of the dedup loop over the processed prefix of the
artifact list: the seen set is exactly the stored hashes, stored hashes are
pairwise distinct, a markdown is stored iff some processed artifact
produced it (non-empty), stored + duplicate counts add up to the artifacts
with markdown, and each stored row comes from the first artifact with its
markdown. -/
def tablesInv (sections : List BSection) (md5 : List Char → String)
    (st : TablesState) (processed : List TableArtifact) : Prop :=
  (∀ h, h ∈ st.seen ↔ ∃ t ∈ st.stored, md5 t.markdown = h)
  ∧ (st.stored.map (fun t => md5 t.markdown)).Nodup
  ∧ (∀ m : List Char, (∃ t ∈ st.stored, t.markdown = m)
      ↔ (m ≠ [] ∧ ∃ a ∈ processed, a.markdown = m))
  ∧ st.stored.length + st.dups = processed.countP (fun a => !a.markdown.isEmpty)
  ∧ (∀ t ∈ st.stored, ∃ pre a0 post, processed = pre ++ a0 :: post
      ∧ (∀ b ∈ pre, b.markdown ≠ t.markdown)
      ∧ a0.markdown = t.markdown
      ∧ resolveSectionNum sections (tablePage a0.page) = some t.sectionNum
      ∧ a0.caption = t.caption)

theorem tablesInv_step (sections : List BSection) (md5 : List Char → String)
    (hinj : Function.Injective md5) (hsec : sections ≠ [])
    (hnum : ∀ s ∈ sections, s.number ≠ "")
    (st : TablesState) (processed : List TableArtifact) (a : TableArtifact)
    (h : tablesInv sections md5 st processed) :
    tablesInv sections md5 (tableStep sections md5 st a) (processed ++ [a]) := by
  obtain ⟨hseen, hnodup, hiff, hcount, hfirst⟩ := h
  obtain ⟨num, hres⟩ := resolveSectionNum_isSome sections (tablePage a.page) hsec hnum
  unfold tableStep
  rw [hres]
  dsimp only
  have hextend : ∀ t ∈ st.stored, ∃ pre a0 post, processed ++ [a] = pre ++ a0 :: post
      ∧ (∀ b ∈ pre, b.markdown ≠ t.markdown)
      ∧ a0.markdown = t.markdown
      ∧ resolveSectionNum sections (tablePage a0.page) = some t.sectionNum
      ∧ a0.caption = t.caption := by
    intro t ht
    obtain ⟨pre, a0, post, hsplit, hpre, ha0, hr0, hcap⟩ := hfirst t ht
    exact ⟨pre, a0, post ++ [a], by rw [hsplit]; simp, hpre, ha0, hr0, hcap⟩
  by_cases hmd : a.markdown = []
  · rw [if_pos hmd]
    refine ⟨hseen, hnodup, ?_, ?_, hextend⟩
    · intro m
      rw [hiff m]
      constructor
      · rintro ⟨hm, a2, ha2, hma⟩
        exact ⟨hm, a2, List.mem_append_left _ ha2, hma⟩
      · rintro ⟨hm, a2, ha2, hma⟩
        rcases List.mem_append.mp ha2 with h1 | h1
        · exact ⟨hm, a2, h1, hma⟩
        · simp only [List.mem_singleton] at h1
          subst h1
          exact absurd (by rw [← hma]; exact hmd) hm
    · rw [List.countP_append]
      have hpa : (List.countP (fun a2 => !a2.markdown.isEmpty) [a]) = 0 := by
        simp [List.countP_cons, hmd]
      omega
  · rw [if_neg hmd]
    by_cases hs : md5 a.markdown ∈ st.seen
    · rw [if_pos hs]
      refine ⟨hseen, hnodup, ?_, ?_, hextend⟩
      · intro m
        rw [hiff m]
        constructor
        · rintro ⟨hm, a2, ha2, hma⟩
          exact ⟨hm, a2, List.mem_append_left _ ha2, hma⟩
        · rintro ⟨hm, a2, ha2, hma⟩
          rcases List.mem_append.mp ha2 with h1 | h1
          · exact ⟨hm, a2, h1, hma⟩
          · simp only [List.mem_singleton] at h1
            subst h1
            obtain ⟨t, htm, hth⟩ := (hseen (md5 a2.markdown)).mp hs
            have htmd : t.markdown = a2.markdown := hinj hth
            have := (hiff m).mp ⟨t, htm, by rw [htmd, hma]⟩
            exact ⟨hm, this.2⟩
      · dsimp only
        rw [List.countP_append]
        have hpa : (List.countP (fun a2 => !a2.markdown.isEmpty) [a]) = 1 := by
          simp [List.countP_cons, List.isEmpty_iff, hmd]
        omega
    · rw [if_neg hs]
      have hfresh : ∀ b ∈ processed, b.markdown ≠ a.markdown := by
        intro b hb hbe
        obtain ⟨t, htm, htmd⟩ := ((hiff a.markdown).mpr ⟨hmd, b, hb, hbe⟩)
        exact hs ((hseen (md5 a.markdown)).mpr ⟨t, htm, by rw [htmd]⟩)
      refine ⟨?_, ?_, ?_, ?_, ?_⟩
      · intro hh
        dsimp only
        simp only [List.mem_cons]
        constructor
        · rintro (rfl | h1)
          · exact ⟨⟨num, a.caption, a.markdown⟩, List.mem_append_right _ (by simp), rfl⟩
          · obtain ⟨t, ht, rfl⟩ := (hseen hh).mp h1
            exact ⟨t, List.mem_append_left _ ht, rfl⟩
        · rintro ⟨t, ht, rfl⟩
          rcases List.mem_append.mp ht with h1 | h1
          · exact Or.inr ((hseen _).mpr ⟨t, h1, rfl⟩)
          · simp only [List.mem_singleton] at h1
            subst h1
            exact Or.inl rfl
      · dsimp only
        rw [List.map_append]
        apply List.Nodup.append hnodup (by simp)
        intro y hy hmem
        simp only [List.map_cons, List.map_nil, List.mem_singleton] at hmem
        subst hmem
        obtain ⟨t, ht, heq⟩ := List.mem_map.mp hy
        exact hs ((hseen _).mpr ⟨t, ht, heq⟩)
      · intro m
        dsimp only
        constructor
        · rintro ⟨t, ht, rfl⟩
          rcases List.mem_append.mp ht with h1 | h1
          · have := (hiff t.markdown).mp ⟨t, h1, rfl⟩
            exact ⟨this.1, this.2.choose, List.mem_append_left _ this.2.choose_spec.1,
              this.2.choose_spec.2⟩
          · simp only [List.mem_singleton] at h1
            subst h1
            exact ⟨hmd, a, List.mem_append_right _ (by simp), rfl⟩
        · rintro ⟨hm, a2, ha2, hma⟩
          rcases List.mem_append.mp ha2 with h1 | h1
          · obtain ⟨t, ht, htm⟩ := (hiff m).mpr ⟨hm, a2, h1, hma⟩
            exact ⟨t, List.mem_append_left _ ht, htm⟩
          · simp only [List.mem_singleton] at h1
            subst h1
            exact ⟨⟨num, a2.caption, a2.markdown⟩, List.mem_append_right _ (by simp), hma⟩
      · dsimp only
        rw [List.countP_append, List.length_append]
        have hpa : (List.countP (fun a2 => !a2.markdown.isEmpty) [a]) = 1 := by
          simp [List.countP_cons, List.isEmpty_iff, hmd]
        simp only [List.length_singleton]
        omega
      · intro t ht
        dsimp only at ht
        rcases List.mem_append.mp ht with h1 | h1
        · exact hextend t h1
        · simp only [List.mem_singleton] at h1
          subst h1
          exact ⟨processed, a, [], rfl, hfresh, rfl, hres, rfl⟩

theorem tablesInv_foldl (sections : List BSection) (md5 : List Char → String)
    (hinj : Function.Injective md5) (hsec : sections ≠ [])
    (hnum : ∀ s ∈ sections, s.number ≠ "") :
    ∀ (arts : List TableArtifact) (st : TablesState) (processed : List TableArtifact),
      tablesInv sections md5 st processed →
      tablesInv sections md5 (arts.foldl (tableStep sections md5) st) (processed ++ arts) := by
  intro arts
  induction arts with
  | nil => intro st processed h; simpa using h
  | cons a rest ih =>
    intro st processed h
    have hstep := tablesInv_step sections md5 hinj hsec hnum st processed a h
    have := ih (tableStep sections md5 st a) (processed ++ [a]) hstep
    simpa [List.append_assoc] using this

theorem tablesInv_init (sections : List BSection) (md5 : List Char → String) :
    tablesInv sections md5 ⟨[], [], 0⟩ [] := by
  refine ⟨?_, ?_, ?_, ?_, ?_⟩
  · intro h; simp
  · simp
  · intro m; simp
  · simp
  · intro t ht; simp at ht

/-- C9: within one run (the seen-hash set starts empty on every call),
stored tables have pairwise distinct content hashes and pairwise distinct
markdown; a markdown value is stored iff it is non-empty and produced by
some artifact of this run, so at most one row exists per markdown; stored
rows plus duplicate-skips account exactly for the artifacts with markdown;
and each stored row carries the section and caption of the first artifact
of the run with that markdown. -/
theorem extract_tables_spec (sections : List BSection) (arts : List TableArtifact)
    (md5 : List Char → String) (hinj : Function.Injective md5)
    (hsec : sections ≠ []) (hnum : ∀ s ∈ sections, s.number ≠ "") :
    ((extract_tables sections arts md5).stored.map (fun t => md5 t.markdown)).Nodup
    ∧ ((extract_tables sections arts md5).stored.map (fun t => t.markdown)).Nodup
    ∧ (∀ m : List Char,
        (∃ t ∈ (extract_tables sections arts md5).stored, t.markdown = m)
          ↔ (m ≠ [] ∧ ∃ a ∈ arts, a.markdown = m))
    ∧ (extract_tables sections arts md5).stored.length
        + (extract_tables sections arts md5).dups
        = arts.countP (fun a => !a.markdown.isEmpty)
    ∧ (∀ t ∈ (extract_tables sections arts md5).stored,
        ∃ pre a0 post, arts = pre ++ a0 :: post
          ∧ (∀ b ∈ pre, b.markdown ≠ t.markdown)
          ∧ a0.markdown = t.markdown
          ∧ resolveSectionNum sections (tablePage a0.page) = some t.sectionNum
          ∧ a0.caption = t.caption) := by
  have hinv := tablesInv_foldl sections md5 hinj hsec hnum arts ⟨[], [], 0⟩ []
    (tablesInv_init sections md5)
  rw [List.nil_append] at hinv
  obtain ⟨h1, h2, h3, h4, h5⟩ := hinv
  refine ⟨h2, ?_, h3, h4, h5⟩
  have h2e : ((extract_tables sections arts md5).stored.map (fun t => md5 t.markdown)).Nodup := h2
  have hmm2 : (extract_tables sections arts md5).stored.map (fun t => md5 t.markdown)
      = ((extract_tables sections arts md5).stored.map (fun t => t.markdown)).map md5 := by
    rw [List.map_map]
    rfl
  rw [hmm2] at h2e
  exact h2e.of_map

def secsW : List BSection := [⟨"1", none, "t".toList, 1, 2, 0, []⟩]

def artsW : List TableArtifact :=
  [⟨some 1, none, "| a |".toList⟩, ⟨some 2, none, "| a |".toList⟩]

def md5W : List Char → String := fun m => m.asString

theorem md5W_inj : Function.Injective md5W :=
  fun a b h => congrArg String.data h

/-- Witness for C9: two artifacts with identical markdown yield one stored
row and one counted duplicate. -/
theorem extract_tables_spec_witness :
    secsW ≠ []
    ∧ (∀ s ∈ secsW, s.number ≠ "")
    ∧ (extract_tables secsW artsW md5W).stored.length
        + (extract_tables secsW artsW md5W).dups
        = artsW.countP (fun a => !a.markdown.isEmpty)
    ∧ (extract_tables secsW artsW md5W).stored.length = 1
    ∧ (extract_tables secsW artsW md5W).dups = 1 :=
  ⟨by decide, by decide,
    (extract_tables_spec secsW artsW md5W md5W_inj (by decide) (by decide)).2.2.2.1,
    by decide, by decide⟩

/-! ## clear_embeddings (clear_embeddings.py, lines 19-102)

The store seen by the script: the interactive `input()` answer is a
parameter.  A `None` model name compares like SQL `embedding_model = NULL`,
matching no row. -/

structure EmbRow where
  sectionId : Nat
  language : String
  model : String
deriving DecidableEq

structure EmbDB where
  sections : List SectionRow
  codeExamples : List CodeRow
  tables : List TableRow
  sectionEmbeddings : List EmbRow
deriving DecidableEq

/-- Python `str.lower()` (ASCII case folding on the character list;
`String.toLower` itself does not reduce in the kernel). -/
def pyLower (s : String) : String := ⟨s.data.map Char.toLower⟩

/-- The WHERE clause shared by the COUNT and DELETE statements. -/
def embMatches (clearAll : Bool) (modelName : Option String) (language : Option String)
    (r : EmbRow) : Bool :=
  if clearAll then true
  else match language with
    | some l => (some r.model == modelName) && (r.language == l)
    | none => some r.model == modelName

/-- Embeds `clear_embeddings`: count the matching rows; return 0 untouched when
none match; prompt, and return 0 untouched unless the answer lowercases to
"y"; otherwise delete the matching rows and return 0. -/
def clear_embeddings (db : EmbDB) (modelName : Option String) (language : Option String)
    (clearAll : Bool) (response : String) : Nat × EmbDB :=
  if (db.sectionEmbeddings.filter (embMatches clearAll modelName language)).length = 0 then
    (0, db)
  else if pyLower response ≠ "y" then
    (0, db)
  else
    (0, { db with sectionEmbeddings :=
        db.sectionEmbeddings.filter (fun r => !(embMatches clearAll modelName language r)) })

/-- C10: when matching rows exist and the confirmation answer is anything
other than "y" (case-insensitively), `clear_embeddings` returns 0 and the
whole store — sections, code examples, tables and section_embeddings — is
returned exactly as it was. -/
theorem clear_embeddings_cancel (db : EmbDB) (modelName language : Option String)
    (clearAll : Bool) (response : String)
    (hfound : 0 < (db.sectionEmbeddings.filter (embMatches clearAll modelName language)).length)
    (hresp : pyLower response ≠ "y") :
    clear_embeddings db modelName language clearAll response = (0, db) := by
  unfold clear_embeddings
  rw [if_neg (by omega), if_pos hresp]

def embDBW : EmbDB :=
  ⟨[], [], [], [⟨1, "verilog", "M"⟩, ⟨1, "verilog", "N"⟩]⟩

/-- Witness for C10: a store with embeddings for models "M" and "N",
clearing model "M", answered "n". -/
theorem clear_embeddings_cancel_witness :
    0 < (embDBW.sectionEmbeddings.filter (embMatches false (some "M") none)).length
    ∧ pyLower "n" ≠ "y"
    ∧ clear_embeddings embDBW (some "M") none false "n" = (0, embDBW) :=
  ⟨by decide, by decide,
    clear_embeddings_cancel embDBW (some "M") none false "n" (by decide) (by decide)⟩
